import Mathlib

/-!
Verification of the adaptive request-pacing and identity-rotation core of the
ebayScraper repository (src/utils/rate_limiter.py and src/utils/user_agents.py).

Delays and latencies are modelled as rationals; Python dictionaries are
modelled as insertion-ordered association lists (Python dicts preserve
insertion order, new keys are appended, assignment to an existing key keeps
its position).  Randomness (random.choice) is modelled by passing the chosen
index explicitly; a call that falls back to a random choice is modelled by
the value none / an error result.
-/

/-- State of `RateLimiter` (src/utils/rate_limiter.py).  The fields
`randomize`, `last_request_time` and the logger only matter for `wait()`,
which performs I/O and is not needed by any claim, so they are omitted. -/
structure RateLimiter where
  base_delay : ℚ
  current_delay : ℚ
  consecutive_successes : ℕ
  consecutive_failures : ℕ
  deriving Repr, DecidableEq

/-- `RateLimiter.__init__(base_delay)`: `current_delay = base_delay`,
both streak counters start at 0. -/
def RateLimiter.make (base_delay : ℚ) : RateLimiter :=
  { base_delay := base_delay
    current_delay := base_delay
    consecutive_successes := 0
    consecutive_failures := 0 }

/-- `RateLimiter.on_success`: increment the success streak, reset the
failure streak; after 5 consecutive successes relax the delay to
`max(base_delay * 0.8, 0.5)`. -/
def RateLimiter.onSuccess (s : RateLimiter) : RateLimiter :=
  let cs := s.consecutive_successes + 1
  let s1 : RateLimiter := { s with consecutive_successes := cs, consecutive_failures := 0 }
  if 5 ≤ cs then
    { s1 with current_delay := max (s1.base_delay * (8/10)) (5/10) }
  else s1

/-- `RateLimiter.on_failure(error_type)`: increment the failure streak,
reset the success streak; if `error_type == "rate_limit"` or the failure
streak reached 3, set the delay to `min(base_delay * 2, 30)`; otherwise, if
the streak reached 5, set it to `min(base_delay * 3, 60)` (this `elif`
branch mirrors the source exactly). -/
def RateLimiter.onFailure (s : RateLimiter) (error_type : String) : RateLimiter :=
  let cf := s.consecutive_failures + 1
  let s1 : RateLimiter := { s with consecutive_failures := cf, consecutive_successes := 0 }
  if error_type = "rate_limit" ∨ 3 ≤ cf then
    { s1 with current_delay := min (s1.base_delay * 2) 30 }
  else if 5 ≤ cf then
    { s1 with current_delay := min (s1.base_delay * 3) 60 }
  else s1

/-- `RateLimiter.on_blocked`: force a 60 second delay and add 10 to the
failure streak. -/
def RateLimiter.onBlocked (s : RateLimiter) : RateLimiter :=
  { s with current_delay := 60, consecutive_failures := s.consecutive_failures + 10 }

/-- One reported outcome, as fed to the rate limiter by the fetch layer. -/
inductive RLCall where
  | success : RLCall
  | failure (error_type : String) : RLCall
  | blocked : RLCall
  deriving Repr, DecidableEq

/-- Apply one reported outcome to a `RateLimiter` state. -/
def RateLimiter.step (s : RateLimiter) : RLCall → RateLimiter
  | RLCall.success => s.onSuccess
  | RLCall.failure et => s.onFailure et
  | RLCall.blocked => s.onBlocked

/-- Apply a sequence of reported outcomes, oldest first. -/
def RateLimiter.run (s : RateLimiter) (calls : List RLCall) : RateLimiter :=
  calls.foldl RateLimiter.step s

/-- C5: `on_failure("rate_limit")` sets `current_delay` to
`min(base_delay * 2, 30)` from any state, regardless of the prior streak;
and after 3 consecutive `on_failure("general")` calls on a fresh limiter,
`current_delay = min(base_delay * 2, 30)`. -/
theorem onFailure_rate_limit_and_three_general (s : RateLimiter) (base : ℚ) :
    (s.onFailure "rate_limit").current_delay = min (s.base_delay * 2) 30 ∧
    ((RateLimiter.make base).run
        [RLCall.failure "general", RLCall.failure "general",
         RLCall.failure "general"]).current_delay = min (base * 2) 30 := by
  constructor
  · simp [RateLimiter.onFailure]
  · simp [RateLimiter.run, RateLimiter.make, RateLimiter.step, RateLimiter.onFailure,
      List.foldl]

/-- C9: `on_blocked` leaves `consecutive_successes` unchanged, so a success
streak accumulated before the block signal still counts: an `on_success`
right after the block continues the streak, and if the streak already stood
at 4 that `on_success` reaches the 5-success relaxation threshold. -/
theorem onBlocked_preserves_success_streak (s : RateLimiter) :
    (s.onBlocked).consecutive_successes = s.consecutive_successes ∧
    (s.onBlocked.onSuccess).consecutive_successes = s.consecutive_successes + 1 ∧
    (4 ≤ s.consecutive_successes →
      (s.onBlocked.onSuccess).current_delay = max (s.base_delay * (8/10)) (5/10)) := by
  refine ⟨rfl, ?_, ?_⟩
  · simp [RateLimiter.onBlocked, RateLimiter.onSuccess]
    split <;> rfl
  · intro h
    simp only [RateLimiter.onBlocked, RateLimiter.onSuccess]
    have h5 : 5 ≤ s.consecutive_successes + 1 := by omega
    simp [h5]

/-- C9 witness: the frame property instantiated at the fresh state with a
4-success streak. -/
theorem onBlocked_preserves_success_streak_witness :
    (({ RateLimiter.make 2 with
        consecutive_successes := 4 } : RateLimiter).onBlocked.onSuccess).current_delay
      = max ((2 : ℚ) * (8/10)) (5/10) :=
  (onBlocked_preserves_success_streak
    { RateLimiter.make 2 with consecutive_successes := 4 }).2.2 (by norm_num)

/-- The delay-bounds invariant used for C1: `base_delay` is within
`[0.1, 60]` (it is never modified by the three outcome handlers) and
`current_delay` is within `[0.1, 60]`. -/
def RateLimiter.DelayInv (s : RateLimiter) : Prop :=
  1/10 ≤ s.base_delay ∧ s.base_delay ≤ 60 ∧
  1/10 ≤ s.current_delay ∧ s.current_delay ≤ 60

theorem RateLimiter.DelayInv.step {s : RateLimiter} (h : s.DelayInv) (c : RLCall) :
    (s.step c).DelayInv := by
  obtain ⟨hb1, hb2, hc1, hc2⟩ := h
  cases c with
  | success =>
    simp only [RateLimiter.step, RateLimiter.onSuccess]
    split
    · refine ⟨hb1, hb2, le_max_of_le_right (by norm_num), max_le (by linarith) (by norm_num)⟩
    · exact ⟨hb1, hb2, hc1, hc2⟩
  | failure et =>
    simp only [RateLimiter.step, RateLimiter.onFailure]
    split
    · refine ⟨hb1, hb2, le_min (by linarith) (by norm_num),
        le_trans (min_le_right _ _) (by norm_num)⟩
    · split
      · refine ⟨hb1, hb2, le_min (by linarith) (by norm_num), min_le_right _ _⟩
      · exact ⟨hb1, hb2, hc1, hc2⟩
  | blocked =>
    exact ⟨hb1, hb2, by norm_num [RateLimiter.step, RateLimiter.onBlocked],
      by norm_num [RateLimiter.step, RateLimiter.onBlocked]⟩

theorem RateLimiter.DelayInv.run {s : RateLimiter} (h : s.DelayInv) (calls : List RLCall) :
    (s.run calls).DelayInv := by
  induction calls generalizing s with
  | nil => exact h
  | cons c rest ih => exact ih (h.step c)

/-- C1: starting from a freshly constructed limiter whose `base_delay` lies
in `[0.1, 60]` (the default construction uses 2.0), after every sequence of
`on_success` / `on_failure(kind)` / `on_blocked` calls `current_delay` stays
at least 0.1 and at most 60 seconds. -/
theorem current_delay_bounded (base : ℚ) (hb1 : 1/10 ≤ base) (hb2 : base ≤ 60)
    (calls : List RLCall) :
    1/10 ≤ ((RateLimiter.make base).run calls).current_delay ∧
    ((RateLimiter.make base).run calls).current_delay ≤ 60 := by
  have h0 : (RateLimiter.make base).DelayInv := ⟨hb1, hb2, hb1, hb2⟩
  obtain ⟨_, _, h1, h2⟩ := h0.run calls
  exact ⟨h1, h2⟩

/-- C1 witness: the default construction (`base_delay = 2.0`) followed by a
concrete mixed call sequence keeps the delay inside `[0.1, 60]`. -/
theorem current_delay_bounded_witness :
    1/10 ≤ ((RateLimiter.make 2).run
        [RLCall.failure "rate_limit", RLCall.blocked, RLCall.success]).current_delay ∧
    ((RateLimiter.make 2).run
        [RLCall.failure "rate_limit", RLCall.blocked, RLCall.success]).current_delay ≤ 60 :=
  current_delay_bounded 2 (by norm_num) (by norm_num)
    [RLCall.failure "rate_limit", RLCall.blocked, RLCall.success]

/-- C2: evaluation at the failing input.  Five consecutive
`on_failure("general")` calls on a fresh limiter with `base_delay = 2.0`
leave `current_delay = min(base_delay * 2, 30) = 4`, not the claimed
`min(base_delay * 3, 60) = 6`: once the failure streak reaches 3 the first
branch of `on_failure` always fires, so the `elif consecutive_failures >= 5`
escalation tier is unreachable. -/
theorem five_general_failures_delay_eval :
    ((RateLimiter.make 2).run (List.replicate 5 (RLCall.failure "general"))).current_delay = 4 ∧
    ((RateLimiter.make 2).run
        (List.replicate 5 (RLCall.failure "general"))).consecutive_failures = 5 ∧
    min ((2 : ℚ) * 3) 60 = 6 := by
  refine ⟨?_, ?_, by norm_num⟩
  · simp [RateLimiter.run, RateLimiter.make, RateLimiter.step, RateLimiter.onFailure,
      List.replicate, List.foldl]
    norm_num
  · simp [RateLimiter.run, RateLimiter.make, RateLimiter.step, RateLimiter.onFailure,
      List.replicate, List.foldl]

/-- State of `AdaptiveRateLimiter` (src/utils/rate_limiter.py): the base
limiter plus a bounded history of observed response latencies. -/
structure AdaptiveRateLimiter where
  rl : RateLimiter
  response_times : List ℚ
  deriving Repr, DecidableEq

/-- `self.max_response_time_history = 10`. -/
def maxResponseTimeHistory : ℕ := 10

/-- `AdaptiveRateLimiter.__init__(base_delay)`. -/
def AdaptiveRateLimiter.make (base_delay : ℚ) : AdaptiveRateLimiter :=
  { rl := RateLimiter.make base_delay, response_times := [] }

/-- The history update at the top of `on_request_complete`: append the new
latency, then `pop(0)` the oldest entry if the history exceeds 10. -/
def AdaptiveRateLimiter.pushTime (s : AdaptiveRateLimiter) (response_time : ℚ) : List ℚ :=
  let ts0 := s.response_times ++ [response_time]
  if maxResponseTimeHistory < ts0.length then ts0.tail else ts0

/-- `AdaptiveRateLimiter.on_request_complete(response_time, success)`:
record the latency, then on success run `on_success` and, if at least 5
latencies are stored and their mean (over the whole stored history) is
below 1.0 and the success streak reached 5, reduce `current_delay` by 10%
(floored at 0.5); on failure run `on_failure("general")` and, if at least 3
latencies are stored and the mean of the last 3 exceeds 5.0, increase
`current_delay` by 50% (capped at 30). -/
def AdaptiveRateLimiter.onRequestComplete (s : AdaptiveRateLimiter) (response_time : ℚ)
    (success : Bool) : AdaptiveRateLimiter :=
  let ts := s.pushTime response_time
  if success then
    let r1 := s.rl.onSuccess
    let r2 :=
      if 5 ≤ ts.length ∧ ts.sum / (ts.length : ℚ) < 1 ∧ 5 ≤ r1.consecutive_successes then
        { r1 with current_delay := max (r1.current_delay * (9/10)) (5/10) }
      else r1
    { rl := r2, response_times := ts }
  else
    let r1 := s.rl.onFailure "general"
    let r2 :=
      if 3 ≤ ts.length ∧ 5 < (ts.drop (ts.length - 3)).sum / 3 then
        { r1 with current_delay := min (r1.current_delay * (3/2)) 30 }
      else r1
    { rl := r2, response_times := ts }

/-- Apply a sequence of `(response_time, success)` completions, oldest
first. -/
def AdaptiveRateLimiter.runComplete (s : AdaptiveRateLimiter)
    (calls : List (ℚ × Bool)) : AdaptiveRateLimiter :=
  calls.foldl (fun t c => t.onRequestComplete c.1 c.2) s

/-- C3 counterexample: after five slow failures (latency 10) and then five
fast successes (latency 0) from a fresh adaptive limiter with
`base_delay = 2.0`, the mean of the last 5 stored latencies is 0 (below
1.0) and `consecutive_successes = 5`, yet `current_delay` is `8/5 = 1.6`
(the plain streak relaxation), not the additionally-10%-reduced
`max(1.6 * 0.9, 0.5) = 36/25 = 1.44` the claim demands: the code averages
over the whole stored history (mean 5.0 here), not over the last 5. -/
theorem adaptive_reduction_uses_full_history_mean :
    ((AdaptiveRateLimiter.make 2).runComplete
        (List.replicate 5 ((10 : ℚ), false) ++
         List.replicate 5 ((0 : ℚ), true))).rl.current_delay = 8/5 ∧
    (((AdaptiveRateLimiter.make 2).runComplete
        (List.replicate 5 ((10 : ℚ), false) ++
         List.replicate 5 ((0 : ℚ), true))).response_times.drop 5).sum / 5 < 1 ∧
    5 ≤ ((AdaptiveRateLimiter.make 2).runComplete
        (List.replicate 5 ((10 : ℚ), false) ++
         List.replicate 5 ((0 : ℚ), true))).rl.consecutive_successes ∧
    ((AdaptiveRateLimiter.make 2).runComplete
        (List.replicate 5 ((10 : ℚ), false) ++
         List.replicate 5 ((0 : ℚ), true))).response_times.length = 10 ∧
    (8/5 : ℚ) ≠ max ((8/5) * (9/10)) (5/10) := by
  have e1 : (AdaptiveRateLimiter.make 2).onRequestComplete 10 false
      = ⟨⟨2, 2, 0, 1⟩, [10]⟩ := by
    norm_num [AdaptiveRateLimiter.onRequestComplete, AdaptiveRateLimiter.pushTime,
      maxResponseTimeHistory, AdaptiveRateLimiter.make, RateLimiter.make,
      RateLimiter.onFailure, min_def, max_def]
    decide
  have e2 : (⟨⟨2, 2, 0, 1⟩, [10]⟩ : AdaptiveRateLimiter).onRequestComplete 10 false
      = ⟨⟨2, 2, 0, 2⟩, [10, 10]⟩ := by
    norm_num [AdaptiveRateLimiter.onRequestComplete, AdaptiveRateLimiter.pushTime,
      maxResponseTimeHistory, RateLimiter.onFailure, min_def, max_def]
    decide
  have e3 : (⟨⟨2, 2, 0, 2⟩, [10, 10]⟩ : AdaptiveRateLimiter).onRequestComplete 10 false
      = ⟨⟨2, 6, 0, 3⟩, [10, 10, 10]⟩ := by
    norm_num [AdaptiveRateLimiter.onRequestComplete, AdaptiveRateLimiter.pushTime,
      maxResponseTimeHistory, RateLimiter.onFailure, min_def, max_def]
  have e4 : (⟨⟨2, 6, 0, 3⟩, [10, 10, 10]⟩ : AdaptiveRateLimiter).onRequestComplete 10 false
      = ⟨⟨2, 6, 0, 4⟩, [10, 10, 10, 10]⟩ := by
    norm_num [AdaptiveRateLimiter.onRequestComplete, AdaptiveRateLimiter.pushTime,
      maxResponseTimeHistory, RateLimiter.onFailure, min_def, max_def]
  have e5 : (⟨⟨2, 6, 0, 4⟩, [10, 10, 10, 10]⟩ : AdaptiveRateLimiter).onRequestComplete 10 false
      = ⟨⟨2, 6, 0, 5⟩, [10, 10, 10, 10, 10]⟩ := by
    norm_num [AdaptiveRateLimiter.onRequestComplete, AdaptiveRateLimiter.pushTime,
      maxResponseTimeHistory, RateLimiter.onFailure, min_def, max_def]
  have e6 : (⟨⟨2, 6, 0, 5⟩, [10, 10, 10, 10, 10]⟩ :
        AdaptiveRateLimiter).onRequestComplete 0 true
      = ⟨⟨2, 6, 1, 0⟩, [10, 10, 10, 10, 10, 0]⟩ := by
    norm_num [AdaptiveRateLimiter.onRequestComplete, AdaptiveRateLimiter.pushTime,
      maxResponseTimeHistory, RateLimiter.onSuccess, min_def, max_def]
  have e7 : (⟨⟨2, 6, 1, 0⟩, [10, 10, 10, 10, 10, 0]⟩ :
        AdaptiveRateLimiter).onRequestComplete 0 true
      = ⟨⟨2, 6, 2, 0⟩, [10, 10, 10, 10, 10, 0, 0]⟩ := by
    norm_num [AdaptiveRateLimiter.onRequestComplete, AdaptiveRateLimiter.pushTime,
      maxResponseTimeHistory, RateLimiter.onSuccess, min_def, max_def]
  have e8 : (⟨⟨2, 6, 2, 0⟩, [10, 10, 10, 10, 10, 0, 0]⟩ :
        AdaptiveRateLimiter).onRequestComplete 0 true
      = ⟨⟨2, 6, 3, 0⟩, [10, 10, 10, 10, 10, 0, 0, 0]⟩ := by
    norm_num [AdaptiveRateLimiter.onRequestComplete, AdaptiveRateLimiter.pushTime,
      maxResponseTimeHistory, RateLimiter.onSuccess, min_def, max_def]
  have e9 : (⟨⟨2, 6, 3, 0⟩, [10, 10, 10, 10, 10, 0, 0, 0]⟩ :
        AdaptiveRateLimiter).onRequestComplete 0 true
      = ⟨⟨2, 6, 4, 0⟩, [10, 10, 10, 10, 10, 0, 0, 0, 0]⟩ := by
    norm_num [AdaptiveRateLimiter.onRequestComplete, AdaptiveRateLimiter.pushTime,
      maxResponseTimeHistory, RateLimiter.onSuccess, min_def, max_def]
  have e10 : (⟨⟨2, 6, 4, 0⟩, [10, 10, 10, 10, 10, 0, 0, 0, 0]⟩ :
        AdaptiveRateLimiter).onRequestComplete 0 true
      = ⟨⟨2, 8/5, 5, 0⟩, [10, 10, 10, 10, 10, 0, 0, 0, 0, 0]⟩ := by
    norm_num [AdaptiveRateLimiter.onRequestComplete, AdaptiveRateLimiter.pushTime,
      maxResponseTimeHistory, RateLimiter.onSuccess, min_def, max_def]
  have htrace : (AdaptiveRateLimiter.make 2).runComplete
      (List.replicate 5 ((10 : ℚ), false) ++ List.replicate 5 ((0 : ℚ), true)) =
      ⟨⟨2, 8/5, 5, 0⟩, [10, 10, 10, 10, 10, 0, 0, 0, 0, 0]⟩ := by
    simp only [AdaptiveRateLimiter.runComplete, List.replicate, List.cons_append,
      List.nil_append, List.foldl_cons, List.foldl_nil]
    rw [e1, e2, e3, e4, e5, e6, e7, e8, e9, e10]
  rw [htrace]
  refine ⟨rfl, by norm_num, by norm_num, rfl, by norm_num [max_def]⟩

/-- C3 amended: on a successful `on_request_complete` call, if at least 5
latencies are stored after recording, the mean of the WHOLE stored history
(up to the last 10 latencies) is below 1.0, and the success streak after
`on_success` is at least 5, then `current_delay` receives an additional 10%
reduction (applied after the streak-based relaxation), floored at 0.5
seconds. -/
theorem adaptive_fast_success_reduction (s : AdaptiveRateLimiter) (rt : ℚ)
    (h5 : 5 ≤ (s.pushTime rt).length)
    (havg : (s.pushTime rt).sum / ((s.pushTime rt).length : ℚ) < 1)
    (hcs : 5 ≤ s.rl.onSuccess.consecutive_successes) :
    (s.onRequestComplete rt true).rl.current_delay
      = max (s.rl.onSuccess.current_delay * (9/10)) (5/10) := by
  simp only [AdaptiveRateLimiter.onRequestComplete, if_true]
  rw [if_pos ⟨h5, havg, hcs⟩]

/-- C3 amended witness: a state with four stored zero latencies and a
4-success streak; the fifth fast success triggers both the streak
relaxation (to 1.6) and the additional 10% reduction (to 1.44). -/
theorem adaptive_fast_success_reduction_witness :
    (({ rl := { base_delay := 2, current_delay := 6,
                consecutive_successes := 4, consecutive_failures := 0 },
        response_times := [0, 0, 0, 0] } : AdaptiveRateLimiter).onRequestComplete
        0 true).rl.current_delay = 36/25 := by
  have h := adaptive_fast_success_reduction
    { rl := { base_delay := 2, current_delay := 6,
              consecutive_successes := 4, consecutive_failures := 0 },
      response_times := [0, 0, 0, 0] } 0
    (by norm_num [AdaptiveRateLimiter.pushTime, maxResponseTimeHistory])
    (by norm_num [AdaptiveRateLimiter.pushTime, maxResponseTimeHistory])
    (by norm_num [RateLimiter.onSuccess])
  rw [h]
  norm_num [RateLimiter.onSuccess, max_def]

/-- State of `UserAgentRotator` (src/utils/user_agents.py): the pool of
user-agent strings and the sequential rotation cursor. -/
structure UserAgentRotator where
  user_agents : List String
  current_index : ℕ
  deriving Repr, DecidableEq

/-- `UserAgentRotator.get_next_agent`: return `user_agents[current_index]`,
then advance the cursor with wrap-around
(`current_index = (current_index + 1) % len(user_agents)`). -/
def UserAgentRotator.getNextAgent (s : UserAgentRotator) : String × UserAgentRotator :=
  (s.user_agents.getD s.current_index "",
   { s with current_index := (s.current_index + 1) % s.user_agents.length })

/-- Perform `n` successive `get_next_agent` calls, collecting the returned
agents in order together with the final rotator state. -/
def UserAgentRotator.collectNext : ℕ → UserAgentRotator → List String × UserAgentRotator
  | 0, s => ([], s)
  | n + 1, s =>
    let p := s.getNextAgent
    let q := UserAgentRotator.collectNext n p.2
    (p.1 :: q.1, q.2)

theorem getD_append_len (a : List String) (x : String) (t : List String) (d : String) :
    (a ++ x :: t).getD a.length d = x := by
  induction a with
  | nil => rfl
  | cons y a ih => simpa using ih

theorem collectNext_succ (n : ℕ) (s : UserAgentRotator) :
    UserAgentRotator.collectNext (n + 1) s =
      ((s.getNextAgent).1 :: (UserAgentRotator.collectNext n (s.getNextAgent).2).1,
       (UserAgentRotator.collectNext n (s.getNextAgent).2).2) := rfl

theorem collectNext_block (b : List String) : ∀ a : List String, b ≠ [] →
    UserAgentRotator.collectNext b.length ⟨a ++ b, a.length⟩ = (b, ⟨a ++ b, 0⟩) := by
  induction b with
  | nil => intro a h; exact absurd rfl h
  | cons x t ih =>
    intro a _
    cases t with
    | nil =>
      have hmod : (a.length + 1) % (a ++ [x]).length = 0 := by
        simp [Nat.mod_self]
      show UserAgentRotator.collectNext (0 + 1) ⟨a ++ [x], a.length⟩
          = ([x], ⟨a ++ [x], 0⟩)
      rw [collectNext_succ]
      simp only [UserAgentRotator.getNextAgent, UserAgentRotator.collectNext]
      rw [getD_append_len, hmod]
    | cons y t2 =>
      have hlen : a.length + 1 < (a ++ x :: y :: t2).length := by
        simp
      have hmod : (a.length + 1) % (a ++ x :: y :: t2).length = a.length + 1 :=
        Nat.mod_eq_of_lt hlen
      have hre : a ++ x :: y :: t2 = (a ++ [x]) ++ (y :: t2) := by simp
      have hlen2 : a.length + 1 = (a ++ [x]).length := by simp
      have hih := ih (a ++ [x]) (by simp)
      rw [← hre] at hih
      rw [← hlen2] at hih
      show UserAgentRotator.collectNext ((y :: t2).length + 1) ⟨a ++ x :: y :: t2, a.length⟩
          = (x :: y :: t2, ⟨a ++ x :: y :: t2, 0⟩)
      rw [collectNext_succ]
      simp only [UserAgentRotator.getNextAgent]
      rw [getD_append_len, hmod, hih]

theorem collectNext_add (m n : ℕ) : ∀ s : UserAgentRotator,
    UserAgentRotator.collectNext (m + n) s =
      ((UserAgentRotator.collectNext m s).1 ++
          (UserAgentRotator.collectNext n (UserAgentRotator.collectNext m s).2).1,
       (UserAgentRotator.collectNext n (UserAgentRotator.collectNext m s).2).2) := by
  induction m with
  | zero => intro s; simp [UserAgentRotator.collectNext]
  | succ k ih =>
    intro s
    have hnum : k + 1 + n = (k + n) + 1 := by omega
    rw [hnum, collectNext_succ, collectNext_succ, ih]
    simp

/-- C7: from a rotator whose cursor starts at 0, `pool_size` successive
`get_next_agent` calls return every pool entry exactly once in pool order
and bring the state back to the start, each call advances the cursor by
`(cursor + 1) mod pool_size`, and every further block of calls repeats the
identical sequence. -/
theorem next_agent_cycles (pool : List String) (h : pool ≠ []) :
    UserAgentRotator.collectNext pool.length ⟨pool, 0⟩ = (pool, ⟨pool, 0⟩) ∧
    (∀ s : UserAgentRotator,
      (s.getNextAgent).2.current_index = (s.current_index + 1) % s.user_agents.length) ∧
    (∀ n : ℕ, (UserAgentRotator.collectNext (pool.length + n) ⟨pool, 0⟩).1
        = pool ++ (UserAgentRotator.collectNext n ⟨pool, 0⟩).1) := by
  have hblock := collectNext_block pool [] h
  simp only [List.nil_append, List.length_nil] at hblock
  refine ⟨hblock, fun s => rfl, fun n => ?_⟩
  rw [collectNext_add pool.length n ⟨pool, 0⟩, hblock]

/-- C7 witness: a three-element pool cycles through all three agents and
returns to the initial state. -/
theorem next_agent_cycles_witness :
    UserAgentRotator.collectNext 3 ⟨["ua1", "ua2", "ua3"], 0⟩
      = (["ua1", "ua2", "ua3"], ⟨["ua1", "ua2", "ua3"], 0⟩) :=
  (next_agent_cycles ["ua1", "ua2", "ua3"] (by simp)).1

/-- Substring test modelling the Python expression `pat in s`. -/
def strContains (s pat : String) : Bool :=
  (List.range (s.toList.length + 1)).any
    (fun i => decide ((s.toList.drop i).take pat.toList.length = pat.toList))

/-- The desktop filter of `get_desktop_agent`:
`'Mobile' not in ua and 'iPhone' not in ua and 'Android' not in ua`. -/
def isDesktopAgent (ua : String) : Bool :=
  !(strContains ua "Mobile") && !(strContains ua "iPhone") && !(strContains ua "Android")

/-- `UserAgentRotator.get_desktop_agent`: filter the pool down to desktop
agents and pick one at random (`random.choice` raises on an empty sequence;
the error case is modelled by `Except.error`, and the random choice by the
explicit index `choice`). -/
def UserAgentRotator.getDesktopAgent (s : UserAgentRotator) (choice : ℕ) :
    Except String String :=
  let desktop_agents := s.user_agents.filter (fun ua => isDesktopAgent ua)
  if desktop_agents.isEmpty then Except.error "EmptyPoolError"
  else Except.ok (desktop_agents.getD (choice % desktop_agents.length) "")

/-- C6: when no pool entry passes the desktop filter, `get_desktop_agent`
fails with the empty-pool error for every random choice — the error is
returned to the caller, never swallowed into a default agent. -/
theorem getDesktopAgent_empty_pool (s : UserAgentRotator) (choice : ℕ)
    (h : ∀ ua ∈ s.user_agents, isDesktopAgent ua = false) :
    s.getDesktopAgent choice = Except.error "EmptyPoolError" := by
  have hfilter : s.user_agents.filter (fun ua => isDesktopAgent ua) = [] := by
    rw [List.filter_eq_nil_iff]
    intro ua hua
    simp [h ua hua]
  simp [UserAgentRotator.getDesktopAgent, hfilter]

/-- C6 witness: a pool holding only a mobile agent string makes
`get_desktop_agent` fail with the empty-pool error. -/
theorem getDesktopAgent_empty_pool_witness :
    UserAgentRotator.getDesktopAgent ⟨["Mozilla iPhone Mobile"], 0⟩ 0
      = Except.error "EmptyPoolError" :=
  getDesktopAgent_empty_pool ⟨["Mozilla iPhone Mobile"], 0⟩ 0 (by decide)

/-- Per-agent entry of `agent_success_rates`:
`{'success': ..., 'total': ...}`. -/
structure AgentStats where
  success : ℕ
  total : ℕ
  deriving Repr, DecidableEq

/-- `SmartUserAgentRotator.record_result(user_agent, success)` acting on the
`agent_success_rates` dict (an insertion-ordered association list): a new
agent is appended with `{'success': 0, 'total': 0}` and then updated, an
existing agent is updated in place. -/
def recordResult (user_agent : String) (succ : Bool) :
    List (String × AgentStats) → List (String × AgentStats)
  | [] => [(user_agent, ⟨if succ then 1 else 0, 1⟩)]
  | (a, st) :: rest =>
    if a = user_agent then
      (a, ⟨st.success + (if succ then 1 else 0), st.total + 1⟩) :: rest
    else
      (a, st) :: recordResult user_agent succ rest

/-- Apply a sequence of `record_result` calls to the initially empty
statistics dict. -/
def runRecord (calls : List (String × Bool)) : List (String × AgentStats) :=
  calls.foldl (fun r c => recordResult c.1 c.2 r) []

theorem recordResult_le (user_agent : String) (succ : Bool)
    (l : List (String × AgentStats)) (h : ∀ p ∈ l, p.2.success ≤ p.2.total) :
    ∀ p ∈ recordResult user_agent succ l, p.2.success ≤ p.2.total := by
  induction l with
  | nil =>
    intro p hp
    simp only [recordResult, List.mem_singleton] at hp
    subst hp
    cases succ <;> simp
  | cons q rest ih =>
    obtain ⟨a, st⟩ := q
    intro p hp
    simp only [recordResult] at hp
    by_cases ha : a = user_agent
    · rw [if_pos ha] at hp
      rcases List.mem_cons.mp hp with hp1 | hp2
      · subst hp1
        have := h (a, st) (List.mem_cons_self _ _)
        cases succ <;> simp at * <;> omega
      · exact h p (List.mem_cons_of_mem _ hp2)
    · rw [if_neg ha] at hp
      rcases List.mem_cons.mp hp with hp1 | hp2
      · subst hp1
        exact h (a, st) (List.mem_cons_self _ _)
      · exact ih (fun r hr => h r (List.mem_cons_of_mem _ hr)) p hp2

theorem runRecord_aux (calls : List (String × Bool)) :
    ∀ l : List (String × AgentStats), (∀ p ∈ l, p.2.success ≤ p.2.total) →
      ∀ p ∈ calls.foldl (fun r c => recordResult c.1 c.2 r) l, p.2.success ≤ p.2.total := by
  induction calls with
  | nil => intro l h p hp; exact h p hp
  | cons c rest ih =>
    intro l h
    exact ih (recordResult c.1 c.2 l) (recordResult_le c.1 c.2 l h)

/-- C10: starting from the empty statistics map, after every sequence of
`record_result(identity, success)` calls, every tracked identity has
`successes <= attempts`. -/
theorem record_result_success_le_total (calls : List (String × Bool)) :
    ∀ p ∈ runRecord calls, p.2.success ≤ p.2.total :=
  runRecord_aux calls [] (by simp)

/-- C10 witness: one successful call for one agent gives the entry
`{'success': 1, 'total': 1}`, and the invariant instance `1 <= 1`. -/
theorem record_result_success_le_total_witness :
    runRecord [("agentA", true)] = [("agentA", ⟨1, 1⟩)] ∧
    (1 : ℕ) ≤ 1 :=
  ⟨by decide, record_result_success_le_total [("agentA", true)] ("agentA", ⟨1, 1⟩) (by decide)⟩

/-- The key used by `get_stats`: `agent[:50] + "..."` (the first 50
characters of the agent string, followed by an ellipsis). -/
def truncKey (agent : String) : String :=
  String.mk (agent.toList.take 50) ++ "..."

/-- One value of the snapshot produced by `get_stats`. -/
structure StatsEntry where
  success_rate : ℚ
  total_uses : ℕ
  successes : ℕ
  deriving Repr, DecidableEq

/-- Assignment `stats[key] = value` on an insertion-ordered dict: an
existing key keeps its position and gets the new value, a new key is
appended. -/
def dictInsert (k : String) (v : StatsEntry) :
    List (String × StatsEntry) → List (String × StatsEntry)
  | [] => [(k, v)]
  | (a, w) :: rest =>
    if a = k then (a, v) :: rest else (a, w) :: dictInsert k v rest

/-- The loop body of `get_stats`: agents with at least one use contribute
an entry keyed by their truncated name. -/
def statsStep (acc : List (String × StatsEntry)) (p : String × AgentStats) :
    List (String × StatsEntry) :=
  if 0 < p.2.total then
    dictInsert (truncKey p.1)
      ⟨(p.2.success : ℚ) / (p.2.total : ℚ), p.2.total, p.2.success⟩ acc
  else acc

/-- `SmartUserAgentRotator.get_stats`: fold over `agent_success_rates` in
insertion order, building the snapshot dict. -/
def getStats (rates : List (String × AgentStats)) : List (String × StatsEntry) :=
  rates.foldl statsStep []

/-- Key lookup in the snapshot dict. -/
def lookupKey (k : String) : List (String × StatsEntry) → Option StatsEntry
  | [] => none
  | (a, v) :: rest => if a = k then some v else lookupKey k rest

theorem lookupKey_dictInsert (k k' : String) (v : StatsEntry)
    (l : List (String × StatsEntry)) :
    lookupKey k (dictInsert k' v l) = if k' = k then some v else lookupKey k l := by
  induction l with
  | nil =>
    simp only [dictInsert, lookupKey]
  | cons q rest ih =>
    obtain ⟨a, w⟩ := q
    simp only [dictInsert]
    by_cases h1 : a = k'
    · subst h1
      by_cases h2 : a = k
      · subst h2
        simp [lookupKey]
      · simp [lookupKey, h2]
    · by_cases h2 : a = k
      · subst h2
        have h3 : ¬k' = a := fun hc => h1 hc.symm
        simp [lookupKey, h1, h3]
      · simp [lookupKey, h1, h2, ih]

theorem statsFold_frame (l : List (String × AgentStats)) (k : String) :
    ∀ acc, (∀ p ∈ l, 0 < p.2.total → truncKey p.1 ≠ k) →
      lookupKey k (l.foldl statsStep acc) = lookupKey k acc := by
  induction l with
  | nil => intro acc _; rfl
  | cons q t ih =>
    intro acc h
    rw [List.foldl_cons,
      ih (statsStep acc q) (fun p hp => h p (List.mem_cons_of_mem _ hp))]
    simp only [statsStep]
    by_cases hq : 0 < q.2.total
    · rw [if_pos hq, lookupKey_dictInsert,
        if_neg (h q (List.mem_cons_self _ _) hq)]
    · rw [if_neg hq]

theorem statsFold_lookup (l : List (String × AgentStats))
    (hnd : (l.map (fun p => truncKey p.1)).Nodup) (p : String × AgentStats)
    (hp : p ∈ l) (hpos : 0 < p.2.total) :
    ∀ acc, lookupKey (truncKey p.1) (l.foldl statsStep acc)
      = some ⟨(p.2.success : ℚ) / (p.2.total : ℚ), p.2.total, p.2.success⟩ := by
  induction l with
  | nil => exact absurd hp (List.not_mem_nil p)
  | cons q t ih =>
    intro acc
    rw [List.map_cons, List.nodup_cons] at hnd
    rcases List.mem_cons.mp hp with hp1 | hp2
    · subst hp1
      rw [List.foldl_cons, statsFold_frame t (truncKey p.1) (statsStep acc p)
        (fun r hr _ => fun hc => hnd.1 (hc ▸ List.mem_map_of_mem _ hr))]
      simp only [statsStep, if_pos hpos]
      rw [lookupKey_dictInsert, if_pos rfl]
    · rw [List.foldl_cons]
      exact ih hnd.2 hp2 (statsStep acc q)

/-- C8 counterexample: after a single successful `record_result` for the
identity `"agentA"`, `get_stats` maps the truncated key `"agentA..."`, not
the identity `"agentA"` itself, so the identity does not appear as a key of
the snapshot even though it has a recorded attempt. -/
theorem stats_key_is_truncated :
    getStats [("agentA", ⟨1, 1⟩)] = [("agentA...", ⟨1, 1, 1⟩)] ∧
    lookupKey "agentA" (getStats [("agentA", ⟨1, 1⟩)]) = none ∧
    ("agentA", (⟨1, 1⟩ : AgentStats)) ∈ [("agentA", (⟨1, 1⟩ : AgentStats))] ∧
    (0 : ℕ) < (1 : ℕ) := by
  have hkey : truncKey "agentA" = "agentA..." := by decide
  have hne : ¬("agentA..." = "agentA") := by decide
  refine ⟨?_, ?_, by simp, by norm_num⟩
  · simp only [getStats, List.foldl, statsStep, hkey, dictInsert]
    norm_num
  · simp only [getStats, List.foldl, statsStep, hkey, dictInsert]
    norm_num [lookupKey, hne]

/-- C8 amended: `get_stats` maps, for every identity with at least one
recorded attempt, the TRUNCATED key (first 50 characters plus `"..."`) to
that identity's success rate, total uses and successes — provided the
truncated keys of the tracked identities are pairwise distinct (identities
sharing a 50-character head collide, the later one overwriting the
earlier); the call reads the statistics dict without modifying it. -/
theorem stats_maps_truncated_identity (rates : List (String × AgentStats))
    (hnd : (rates.map (fun p => truncKey p.1)).Nodup) (p : String × AgentStats)
    (hp : p ∈ rates) (hpos : 0 < p.2.total) :
    lookupKey (truncKey p.1) (getStats rates)
      = some ⟨(p.2.success : ℚ) / (p.2.total : ℚ), p.2.total, p.2.success⟩ :=
  statsFold_lookup rates hnd p hp hpos []

/-- C8 amended witness: an agent with one success out of two attempts is
reported under its truncated key with rate 1/2, 2 uses, 1 success. -/
theorem stats_maps_truncated_identity_witness :
    lookupKey (truncKey "agentA") (getStats [("agentA", ⟨1, 2⟩)])
      = some ⟨((1 : ℕ) : ℚ) / ((2 : ℕ) : ℚ), 2, 1⟩ :=
  stats_maps_truncated_identity [("agentA", ⟨1, 2⟩)] (by simp)
    ("agentA", ⟨1, 2⟩) (by simp) (by norm_num)

/-- The success ratio `stats['success'] / stats['total']` computed by
`get_best_agent`. -/
def ratio (st : AgentStats) : ℚ :=
  (st.success : ℚ) / (st.total : ℚ)

/-- The loop body of `get_best_agent`: agents with fewer than 5 uses are
skipped; an agent whose ratio strictly exceeds the best rate so far
(initially 0) becomes the new best. -/
def bestStep (acc : Option String × ℚ) (p : String × AgentStats) : Option String × ℚ :=
  if 5 ≤ p.2.total then
    if acc.2 < ratio p.2 then (some p.1, ratio p.2) else acc
  else acc

/-- `SmartUserAgentRotator.get_best_agent`: run the loop over
`agent_success_rates` in insertion order starting from
`best_agent = None, best_rate = 0`; a truthy `best_agent` is returned,
anything falsy (Python `None`, or the empty string) falls back to
`get_random_agent()`, modelled as `none`. -/
def getBestAgent (rates : List (String × AgentStats)) : Option String :=
  match rates.foldl bestStep (none, 0) with
  | (some best_agent, _) => if best_agent = "" then none else some best_agent
  | (none, _) => none

theorem ratio_pos_iff (st : AgentStats) (h : 0 < st.total) :
    0 < ratio st ↔ 0 < st.success := by
  unfold ratio
  rw [div_pos_iff]
  constructor
  · rintro (⟨hs, _⟩ | ⟨_, ht⟩)
    · exact_mod_cast hs
    · have : (0 : ℚ) < (st.total : ℚ) := by exact_mod_cast h
      linarith
  · intro hs
    exact Or.inl ⟨by exact_mod_cast hs, by exact_mod_cast h⟩

/-- `a` is the first-encountered identity among those with at least 5
attempts achieving the (positive) maximum success ratio: every qualifying
entry before it has a strictly smaller ratio, every qualifying entry after
it a smaller-or-equal one. -/
def isFirstBest (rates : List (String × AgentStats)) (a : String) : Prop :=
  ∃ st pre post, rates = pre ++ (a, st) :: post ∧ 5 ≤ st.total ∧ 0 < st.success ∧
    (∀ q ∈ pre, 5 ≤ q.2.total → ratio q.2 < ratio st) ∧
    (∀ q ∈ post, 5 ≤ q.2.total → ratio q.2 ≤ ratio st)

theorem foldBest_characterization (l : List (String × AgentStats)) :
    (l.foldl bestStep (none, 0) = (none, 0) ∧
      ∀ q ∈ l, 5 ≤ q.2.total → ratio q.2 ≤ 0) ∨
    (∃ a st pre post, l = pre ++ (a, st) :: post ∧
      l.foldl bestStep (none, 0) = (some a, ratio st) ∧
      5 ≤ st.total ∧ 0 < ratio st ∧
      (∀ q ∈ pre, 5 ≤ q.2.total → ratio q.2 < ratio st) ∧
      (∀ q ∈ post, 5 ≤ q.2.total → ratio q.2 ≤ ratio st)) := by
  induction l using List.reverseRecOn with
  | nil => exact Or.inl ⟨rfl, by simp⟩
  | append_singleton l p ih =>
    rw [List.foldl_append, List.foldl_cons, List.foldl_nil]
    rcases ih with ⟨heq, hall⟩ | ⟨a, st, pre, post, hdec, heq, hq5, hpos, hpre, hpost⟩
    · rw [heq]
      by_cases hq : 5 ≤ p.2.total
      · by_cases hr : (0 : ℚ) < ratio p.2
        · right
          refine ⟨p.1, p.2, l, [], by simp, by simp [bestStep, hq, hr], hq, hr, ?_, by simp⟩
          intro q hql h5
          exact lt_of_le_of_lt (hall q hql h5) hr
        · left
          refine ⟨by simp [bestStep, hq, hr], ?_⟩
          intro q hql h5
          rcases List.mem_append.mp hql with h | h
          · exact hall q h h5
          · rw [List.mem_singleton] at h
            subst h
            exact le_of_not_lt hr
      · left
        refine ⟨by simp [bestStep, hq], ?_⟩
        intro q hql h5
        rcases List.mem_append.mp hql with h | h
        · exact hall q h h5
        · rw [List.mem_singleton] at h
          subst h
          exact absurd h5 hq
    · rw [heq]
      by_cases hq : 5 ≤ p.2.total
      · by_cases hr : ratio st < ratio p.2
        · right
          refine ⟨p.1, p.2, l, [], by simp, by simp [bestStep, hq, hr], hq,
            lt_trans hpos hr, ?_, by simp⟩
          intro q hql h5
          rw [hdec] at hql
          rcases List.mem_append.mp hql with h | h
          · exact lt_trans (hpre q h h5) hr
          · rcases List.mem_cons.mp h with h1 | h2
            · subst h1
              exact hr
            · exact lt_of_le_of_lt (hpost q h2 h5) hr
        · right
          refine ⟨a, st, pre, post ++ [p], by rw [hdec]; simp,
            by simp [bestStep, hq, hr], hq5, hpos, hpre, ?_⟩
          intro q hql h5
          rcases List.mem_append.mp hql with h | h
          · exact hpost q h h5
          · rw [List.mem_singleton] at h
            subst h
            exact le_of_not_lt hr
      · right
        refine ⟨a, st, pre, post ++ [p], by rw [hdec]; simp,
          by simp [bestStep, hq], hq5, hpos, hpre, ?_⟩
        intro q hql h5
        rcases List.mem_append.mp hql with h | h
        · exact hpost q h h5
        · rw [List.mem_singleton] at h
          subst h
          exact absurd h5 hq

/-- C4 amended: provided no identity is the empty string,
`get_best_agent` falls back to a random identity exactly when no identity
with at least 5 attempts has a positive success count; when it does return
an identity, that identity has at least 5 attempts and a positive success
count, and it is the first-encountered identity achieving the maximum
ratio among those with at least 5 attempts; in particular with A at 5
attempts / 5 successes and B at 5 attempts / 1 success it returns A. -/
theorem best_agent_characterization (rates : List (String × AgentStats))
    (hne : ∀ p ∈ rates, p.1 ≠ "") :
    (getBestAgent rates = none ↔ ∀ p ∈ rates, 5 ≤ p.2.total → p.2.success = 0) ∧
    (∀ a, getBestAgent rates = some a → isFirstBest rates a) ∧
    getBestAgent [("agentA", ⟨5, 5⟩), ("agentB", ⟨1, 5⟩)] = some "agentA" := by
  have hchar := foldBest_characterization rates
  refine ⟨⟨?_, ?_⟩, ?_, ?_⟩
  · intro hnone p hp h5
    rcases hchar with ⟨_, hall⟩ | ⟨a, st, pre, post, hdec, heq, hq5, hpos, _, _⟩
    · have hle := hall p hp h5
      by_contra hs
      have hppos : 0 < ratio p.2 := (ratio_pos_iff p.2 (by omega)).mpr (by omega)
      linarith
    · have hmem : (a, st) ∈ rates := by
        rw [hdec]
        exact List.mem_append.mpr (Or.inr (List.mem_cons_self _ _))
      have ha : a ≠ "" := hne (a, st) hmem
      simp only [getBestAgent, heq, if_neg ha] at hnone
      exact absurd hnone (by simp)
  · intro hzero
    rcases hchar with ⟨heq, _⟩ | ⟨a, st, pre, post, hdec, heq, hq5, hpos, _, _⟩
    · simp only [getBestAgent, heq]
    · have hmem : (a, st) ∈ rates := by
        rw [hdec]
        exact List.mem_append.mpr (Or.inr (List.mem_cons_self _ _))
      have hs0 : st.success = 0 := hzero (a, st) hmem hq5
      have : ¬(0 < ratio st) := by
        rw [ratio_pos_iff st (by omega)]
        omega
      exact absurd hpos this
  · intro a ha
    rcases hchar with ⟨heq, _⟩ | ⟨a', st, pre, post, hdec, heq, hq5, hpos, hpre, hpost⟩
    · simp only [getBestAgent, heq] at ha
      exact Option.noConfusion ha
    · have hmem : (a', st) ∈ rates := by
        rw [hdec]
        exact List.mem_append.mpr (Or.inr (List.mem_cons_self _ _))
      have ha' : a' ≠ "" := hne (a', st) hmem
      simp only [getBestAgent, heq, if_neg ha', Option.some.injEq] at ha
      subst ha
      exact ⟨st, pre, post, hdec, hq5,
        (ratio_pos_iff st (by omega)).mp hpos, hpre, hpost⟩
  · have hAB : ¬("agentA" = "") := by decide
    norm_num [getBestAgent, List.foldl, bestStep, ratio, hAB]

/-- C4 amended witness: an identity with 7 attempts and no success makes
the characterization conclude the random fallback. -/
theorem best_agent_characterization_witness :
    getBestAgent [("agentC", (⟨0, 7⟩ : AgentStats))] = none :=
  (best_agent_characterization [("agentC", ⟨0, 7⟩)] (by decide)).1.mpr (by decide)

/-- C4 counterexample: with identity `"agentA"` at 5 attempts and 0
successes, `get_best_agent` falls back to the random choice (modelled
`none`) even though an identity has reached the 5-attempt threshold,
because `rate > best_rate` never fires when the best available ratio is
0. -/
theorem best_agent_zero_rate_fallback :
    getBestAgent [("agentA", ⟨0, 5⟩)] = none ∧
    ("agentA", (⟨0, 5⟩ : AgentStats)) ∈ [("agentA", (⟨0, 5⟩ : AgentStats))] ∧
    5 ≤ (⟨0, 5⟩ : AgentStats).total := by
  refine ⟨?_, by simp, by norm_num⟩
  norm_num [getBestAgent, List.foldl, bestStep, ratio]
